import Mathlib

/-!
Shallow embedding of the kvstore repository (src/lib.rs, src/file_spec.rs,
src/memory_storage.rs).  Bytes are naturals (< 256 on real data), buffers are
`List Nat`.  Rust panics (slice out of range, `todo!()`, failed `assert!`,
arithmetic underflow) are modelled as the `Panic` error of an `Except`.
-/

/-- Rust panic causes that occur in the modelled code. -/
inductive Panic where
  | oobSlice
  | todoUnimplemented
  | assertFailed
  | underflow
deriving DecidableEq, Repr

/-- `enum Error { Bad }` from lib.rs / file_spec.rs: the crate's single error value. -/
inductive Error where
  | bad
deriving DecidableEq, Repr

/-- A storage operation performed through the `Storage` trait, recorded as a trace. -/
inductive StOp where
  | read (pos len : Nat)
  | write (pos : Nat) (data : List Nat)
deriving DecidableEq, Repr

/-- Whether a storage operation is a read. -/
def StOp.isRead : StOp → Bool
  | .read _ _ => true
  | .write _ _ => false

/-- `bytes[a..b]` of a Rust slice, assuming `a ≤ b ≤ bytes.len()` (callers guard). -/
def listSlice (l : List Nat) (a b : Nat) : List Nat :=
  (l.drop a).take (b - a)

/-- Overwrite `buf[i..i+data.len()]` with `data` (models a field store / copy_from_slice). -/
def writeBytes (buf : List Nat) (i : Nat) (data : List Nat) : List Nat :=
  buf.take i ++ data ++ buf.drop (i + data.length)

/-- `u64::to_be_bytes` (file_spec.rs `W64::new`): 8 big-endian bytes of `v < 2^64`. -/
def w64be (v : Nat) : List Nat :=
  [v / 2 ^ 56 % 256, v / 2 ^ 48 % 256, v / 2 ^ 40 % 256, v / 2 ^ 32 % 256,
   v / 2 ^ 24 % 256, v / 2 ^ 16 % 256, v / 2 ^ 8 % 256, v % 256]

/-- `u64::from_be_bytes` (file_spec.rs `W64::as_u64`) over an 8-byte slice. -/
def readW64 (l : List Nat) : Nat :=
  l.foldl (fun a b => a * 256 + b) 0

/-- file_spec.rs `get_u16`: big-endian u16 at byte index `i` of an offset table. -/
def getU16 (l : List Nat) (i : Nat) : Nat :=
  l.getD i 0 * 256 + l.getD (i + 1) 0

/-- file_spec.rs `NULL_PAGE : u64 = !0`. -/
def NULL_PAGE : Nat := 2 ^ 64 - 1

/-- `FileHeaderV1::MAGIC_VALUE = *b"kv1f"`. -/
def fileMagic : List Nat := [107, 118, 49, 102]

/-- Rust `usize::is_power_of_two`. -/
def isPow2 (n : Nat) : Bool :=
  decide (0 < n) && decide (n &&& (n - 1) = 0)

/-- file_spec.rs `Page::check`: `PAGE_SIZE` a power of two, `≥ MIN_PAGE_SIZE = 32`,
`≥ FileHeaderV1::size() = 28` (repr(C), alignment 1: 4 + 8 + 8 + 8). -/
def pageCheck (ps : Nat) : Bool :=
  isPow2 ps && decide (32 ≤ ps) && decide (28 ≤ ps)

/-- `Page::<FileHeaderV1>::new`: stamp magic at 0, `first_free_page = NULL_PAGE` at
byte 12, `index_page = NULL_PAGE` at byte 4, `page_size = PAGE_SIZE as u64` at byte
20 (in source order), then `check()` (an `assert!`, hence a potential panic). -/
def fileHeaderNew (ps : Nat) (buf : List Nat) : Except Panic (List Nat) :=
  let b1 := writeBytes buf 0 fileMagic
  let b2 := writeBytes b1 12 (w64be NULL_PAGE)
  let b3 := writeBytes b2 4 (w64be NULL_PAGE)
  let b4 := writeBytes b3 20 (w64be (ps % 2 ^ 64))
  if pageCheck ps then .ok b4 else .error .assertFailed

/-- `Page::<FileHeaderV1>::from_buf`: magic mismatch or stored `page_size` differing
from the configured `PAGE_SIZE` return `Err(Error::Bad)`; then `check()` may panic. -/
def fileHeaderFromBuf (ps : Nat) (buf : List Nat) : Except Panic (Except Error Unit) :=
  if listSlice buf 0 4 ≠ fileMagic then .ok (.error .bad)
  else if readW64 (listSlice buf 20 28) ≠ ps % 2 ^ 64 then .ok (.error .bad)
  else if pageCheck ps then .ok (.ok ()) else .error .assertFailed

/-- The mutable state of the `partition` binary-search loop (file_spec.rs lines
207-226): `left`, `right` and the `size` variable updated at the end of each pass. -/
structure PRange where
  left : Nat
  right : Nat
  size : Nat
deriving DecidableEq, Repr

/-- Key slice of entry `i`: `bytes[kb..ke]` with `kb`,`ke` the big-endian u16s at
offset-table bytes `2*i` and `2*i+2`. -/
def entryKey (bytes ko : List Nat) (i : Nat) : List Nat :=
  listSlice bytes (getU16 ko (2 * i)) (getU16 ko (2 * i + 2))

/-- Entry `i`'s slice bounds are in range (otherwise `bytes[kb..ke]` panics). -/
def entryOk (bytes ko : List Nat) (i : Nat) : Prop :=
  getU16 ko (2 * i) ≤ getU16 ko (2 * i + 2) ∧ getU16 ko (2 * i + 2) ≤ bytes.length

instance (bytes ko : List Nat) (i : Nat) : Decidable (entryOk bytes ko i) :=
  inferInstanceAs (Decidable (_ ∧ _))

/-- Rust `<[u8]>::cmp`: lexicographic byte comparison (file_spec.rs line 217). -/
def lexCmp : List Nat → List Nat → Ordering
  | [], [] => .eq
  | [], _ :: _ => .lt
  | _ :: _, [] => .gt
  | a :: as, b :: bs =>
    if a < b then .lt else if b < a then .gt else lexCmp as bs

/-- The comparison result actually steering the loop: the entry/key comparison with
`Equal` replaced by the tie-break (file_spec.rs line 221). -/
def effCmp (key bytes ko : List Nat) (tie : Ordering) (i : Nat) : Ordering :=
  let c := lexCmp (entryKey bytes ko i) key
  if c = .eq then tie else c

/-- One pass of the `while left < right` loop of `partition`. -/
def pstep (key bytes ko : List Nat) (tie : Ordering) (s : PRange) : Except Panic PRange :=
  let mid := s.left + s.size / 2
  if entryOk bytes ko mid then
    let cmp := effCmp key bytes ko tie mid
    let left := if cmp = .lt then mid + 1 else s.left
    let right := if cmp = .gt then mid else s.right
    .ok ⟨left, right, right - left⟩
  else .error .oobSlice

/-- The `while` loop of `partition`, run with explicit fuel.  For the tie-breaks the
program uses (`Less`, `Greater`) fuel `size` provably suffices, so the fueled loop
coincides with the source's unbounded loop (see the termination theorems below). -/
def ploop (key bytes ko : List Nat) (tie : Ordering) : Nat → PRange → Except Panic PRange
  | 0, s => .ok s
  | fuel + 1, s =>
    if s.left < s.right then
      match pstep key bytes ko tie s with
      | .error p => .error p
      | .ok s' => ploop key bytes ko tie fuel s'
    else .ok s

/-- file_spec.rs `partition`.  `key_offsets.len()/2 - 1` underflows (a panic in a
debug build, unchecked reads after wraparound otherwise) when the table has fewer
than 2 bytes; that case is modelled as a panic. -/
def partition (key bytes key_offsets : List Nat) (tie_break : Ordering) : Except Panic Nat :=
  if key_offsets.length < 2 then .error .underflow
  else
    let size := key_offsets.length / 2 - 1
    (ploop key bytes key_offsets tie_break size ⟨0, size, size⟩).map (fun s => s.left)

/-- `Page::<LeafHeaderV1>::get` (file_spec.rs lines 188-203): reads `len` from the
header (bytes 4..12), rejects oversized tables with `Err(Error::Bad)`, slices the
two offset tables and the arena, runs both partition searches and then hits the
source's `todo!()` (modelled as a panic). -/
def leafGet (ps : Nat) (buf key : List Nat) : Except Panic (Except Error (Option Nat)) :=
  let len := readW64 (listSlice buf 4 12)
  let hdrSize := 12
  let keysEnd := hdrSize + len * 2 + 2
  let valuesEnd := keysEnd + len * 2 + 2
  if len > ps / 4 ∨ valuesEnd > ps then .ok (.error .bad)
  else
    let keyOffsets := listSlice buf hdrSize keysEnd
    let _valueOffsets := listSlice buf keysEnd valuesEnd
    let arena := listSlice buf valuesEnd ps
    match partition key arena keyOffsets .lt with
    | .error p => .error p
    | .ok _ =>
      match partition key arena keyOffsets .gt with
      | .error p => .error p
      | .ok _ => .error .todoUnimplemented

/-- memory_storage.rs `read`: `vec[pos..pos+buf.len()]` panics when the range
exceeds the vector's length, otherwise the buffer is filled. -/
def memRead (vec : List Nat) (pos len : Nat) : Except Panic (List Nat) :=
  if pos + len ≤ vec.length then .ok (listSlice vec pos (pos + len))
  else .error .oobSlice

/-- memory_storage.rs `write`: grow the vector with zeros up to `pos + buf.len()`
when needed, then copy the buffer in place. -/
def memWrite (vec : List Nat) (pos : Nat) (data : List Nat) : Except Panic (List Nat) :=
  let newlen := pos + data.length
  let vec1 := if newlen > vec.length then vec ++ List.replicate (newlen - vec.length) 0 else vec
  if pos + data.length ≤ vec1.length then .ok (writeBytes vec1 pos data)
  else .error .oobSlice

/-- lib.rs `KvStore::get` over `MemoryStorage`, paired with the trace of storage
operations it performs: read page 0, parse the file header (`.bad()?` maps its
error), return `Ok(None)` on a null `index_page`, otherwise read the root page
(`page * PAGE_SIZE` as wrapping u64 arithmetic) and — the source being unfinished —
return `Ok(None)` unconditionally. -/
def kvGet (ps : Nat) (store _key : List Nat) :
    Except Panic (Except Error (Option Nat)) × List StOp :=
  match memRead store 0 ps with
  | .error p => (.error p, [.read 0 ps])
  | .ok buf =>
    match fileHeaderFromBuf ps buf with
    | .error p => (.error p, [.read 0 ps])
    | .ok (.error e) => (.ok (.error e), [.read 0 ps])
    | .ok (.ok _) =>
      if readW64 (listSlice buf 4 12) = NULL_PAGE then (.ok (.ok none), [.read 0 ps])
      else
        match memRead store (readW64 (listSlice buf 4 12) * ps % 2 ^ 64) ps with
        | .error p =>
          (.error p, [.read 0 ps, .read (readW64 (listSlice buf 4 12) * ps % 2 ^ 64) ps])
        | .ok _ =>
          (.ok (.ok none), [.read 0 ps, .read (readW64 (listSlice buf 4 12) * ps % 2 ^ 64) ps])

/-- lib.rs `KvStore::set`: the body is `todo!()`, an unconditional panic. -/
def kvSet (_store _key _value : List Nat) : Except Panic (List Nat) :=
  .error .todoUnimplemented

example : partition [3] [1, 3, 5] [0, 0, 0, 1, 0, 2, 0, 3] .gt = .ok 1 := rfl
example : partition [3] [1, 3, 5] [0, 0, 0, 1, 0, 2, 0, 3] .lt = .ok 2 := rfl
example : partition [5] [5] [0, 0, 0, 1] .lt = .ok 1 := rfl
example : partition [5] [5] [0, 0, 0, 1] .gt = .ok 0 := rfl

/-! Order lemmas for lexicographic byte comparison. -/

theorem lexCmp_eq_iff : ∀ a b : List Nat, lexCmp a b = .eq ↔ a = b := by
  intro a
  induction a with
  | nil => intro b; cases b <;> simp [lexCmp]
  | cons x as ih =>
    intro b
    cases b with
    | nil => simp [lexCmp]
    | cons y bs =>
      simp only [lexCmp]
      by_cases h1 : x < y
      · rw [if_pos h1]
        constructor
        · intro h; exact absurd h (by decide)
        · intro h; injection h with h2 h3; omega
      · by_cases h2 : y < x
        · rw [if_neg h1, if_pos h2]
          constructor
          · intro h; exact absurd h (by decide)
          · intro h; injection h with h2 h3; omega
        · have hxy : x = y := by omega
          rw [if_neg h1, if_neg h2, ih bs]
          subst hxy
          simp

theorem lexCmp_self (a : List Nat) : lexCmp a a = .eq := (lexCmp_eq_iff a a).2 rfl

theorem lexCmp_swap : ∀ a b : List Nat, lexCmp b a = (lexCmp a b).swap := by
  intro a
  induction a with
  | nil => intro b; cases b <;> simp [lexCmp, Ordering.swap]
  | cons x as ih =>
    intro b
    cases b with
    | nil => simp [lexCmp, Ordering.swap]
    | cons y bs =>
      simp only [lexCmp]
      rcases Nat.lt_trichotomy x y with h | h | h
      · rw [if_pos h, if_neg (by omega), if_pos h]
        rfl
      · rw [if_neg (by omega), if_neg (by omega), if_neg (by omega), if_neg (by omega)]
        exact ih bs
      · rw [if_pos h, if_neg (by omega), if_pos h]
        rfl

theorem lexCmp_gt_iff (a b : List Nat) : lexCmp a b = .gt ↔ lexCmp b a = .lt := by
  rw [lexCmp_swap a b]
  cases lexCmp a b <;> simp [Ordering.swap]

theorem lexCmp_lt_trans : ∀ a b c : List Nat,
    lexCmp a b = .lt → lexCmp b c = .lt → lexCmp a c = .lt := by
  intro a
  induction a with
  | nil =>
    intro b c hab hbc
    cases b with
    | nil => simp [lexCmp] at hab
    | cons y bs =>
      cases c with
      | nil => simp [lexCmp] at hbc
      | cons z cs => simp [lexCmp]
  | cons x as ih =>
    intro b c hab hbc
    cases b with
    | nil => simp [lexCmp] at hab
    | cons y bs =>
      cases c with
      | nil => simp [lexCmp] at hbc
      | cons z cs =>
        simp only [lexCmp] at hab hbc ⊢
        have hxy : x < y ∨ (x = y ∧ lexCmp as bs = .lt) := by
          by_cases h1 : x < y
          · exact Or.inl h1
          · by_cases h2 : y < x
            · rw [if_neg h1, if_pos h2] at hab; exact absurd hab (by decide)
            · rw [if_neg h1, if_neg h2] at hab; exact Or.inr ⟨by omega, hab⟩
        have hyz : y < z ∨ (y = z ∧ lexCmp bs cs = .lt) := by
          by_cases h1 : y < z
          · exact Or.inl h1
          · by_cases h2 : z < y
            · rw [if_neg h1, if_pos h2] at hbc; exact absurd hbc (by decide)
            · rw [if_neg h1, if_neg h2] at hbc; exact Or.inr ⟨by omega, hbc⟩
        rcases hxy with h | ⟨he1, hl1⟩
        · rcases hyz with h2 | ⟨he2, hl2⟩
          · rw [if_pos (by omega)]
          · rw [if_pos (by omega)]
        · rcases hyz with h2 | ⟨he2, hl2⟩
          · rw [if_pos (by omega)]
          · rw [if_neg (by omega), if_neg (by omega)]
            exact ih bs cs hl1 hl2

/-! Properties of the effective (tie-broken) comparison. -/

theorem effCmp_ne_eq (key bytes ko : List Nat) (tie : Ordering) (ht : tie ≠ .eq) (i : Nat) :
    effCmp key bytes ko tie i ≠ .eq := by
  unfold effCmp
  by_cases h : lexCmp (entryKey bytes ko i) key = .eq
  · simpa [h] using ht
  · simp [h]

theorem effCmp_gt_tie_gt (key bytes ko : List Nat) (i : Nat) :
    effCmp key bytes ko .gt i = .gt ↔ lexCmp (entryKey bytes ko i) key ≠ .lt := by
  cases h : lexCmp (entryKey bytes ko i) key <;> simp [effCmp, h]

theorem effCmp_gt_tie_lt (key bytes ko : List Nat) (i : Nat) :
    effCmp key bytes ko .lt i = .gt ↔ lexCmp (entryKey bytes ko i) key = .gt := by
  cases h : lexCmp (entryKey bytes ko i) key <;> simp [effCmp, h]

theorem effCmp_mono (key bytes ko : List Nat) (tie : Ordering) (n : Nat)
    (hsorted : ∀ i, i < n → ∀ j, j < n → i < j →
      lexCmp (entryKey bytes ko i) (entryKey bytes ko j) = .lt) :
    ∀ i j, i ≤ j → j < n → effCmp key bytes ko tie i = .gt → effCmp key bytes ko tie j = .gt := by
  intro i j hij hjn hi
  by_cases heq : i = j
  · subst heq; exact hi
  · have hij' : i < j := by omega
    have hs := hsorted i (by omega) j hjn hij'
    unfold effCmp at hi ⊢
    by_cases h1 : lexCmp (entryKey bytes ko i) key = .eq
    · have hik : entryKey bytes ko i = key := (lexCmp_eq_iff _ _).1 h1
      have hkj : lexCmp key (entryKey bytes ko j) = .lt := by rw [← hik]; exact hs
      have hjk : lexCmp (entryKey bytes ko j) key = .gt := (lexCmp_gt_iff _ _).2 hkj
      simp [hjk]
    · rw [if_neg h1] at hi
      have hki : lexCmp key (entryKey bytes ko i) = .lt := (lexCmp_gt_iff _ _).1 hi
      have hkj : lexCmp key (entryKey bytes ko j) = .lt := lexCmp_lt_trans _ _ _ hki hs
      have hjk : lexCmp (entryKey bytes ko j) key = .gt := (lexCmp_gt_iff _ _).2 hkj
      simp [hjk]

/-- A monotone `Ordering.gt` region on `[0, n)` has a boundary index. -/
theorem exists_boundary (g : Nat → Ordering) (n : Nat)
    (hmono : ∀ i j, i ≤ j → j < n → g i = .gt → g j = .gt) :
    ∃ b, b ≤ n ∧ ∀ i, i < n → (g i = .gt ↔ b ≤ i) := by
  induction n with
  | zero => exact ⟨0, Nat.le_refl 0, fun i hi => absurd hi (by omega)⟩
  | succ m ih =>
    obtain ⟨b, hb, hchar⟩ := ih (fun i j hij hj hg => hmono i j hij (by omega) hg)
    by_cases hgm : g m = .gt
    · refine ⟨b, by omega, fun i hi => ?_⟩
      by_cases him : i < m
      · exact hchar i him
      · have hieq : i = m := by omega
        subst hieq
        exact ⟨fun _ => hb, fun _ => hgm⟩
    · have hbm : b = m := by
        by_contra hne
        have hblt : b < m := by omega
        exact hgm (hmono b m (by omega) (by omega) ((hchar b hblt).2 (Nat.le_refl b)))
      refine ⟨m + 1, by omega, fun i hi => ?_⟩
      by_cases him : i < m
      · have hc := hchar i him
        rw [hbm] at hc
        constructor
        · intro hg; exact absurd (hc.1 hg) (by omega)
        · intro h; exact absurd h (by omega)
      · have hieq : i = m := by omega
        subst hieq
        constructor
        · intro hg; exact absurd hg hgm
        · intro h; exact absurd h (by omega)

/-! Invariants of the binary-search loop. -/

theorem pstep_cases (key bytes ko : List Nat) (tie : Ordering) (s s' : PRange)
    (hp : pstep key bytes ko tie s = .ok s') :
    s'.size = s'.right - s'.left ∧
      ((effCmp key bytes ko tie (s.left + s.size / 2) = .lt ∧
          s'.left = s.left + s.size / 2 + 1 ∧ s'.right = s.right) ∨
       (effCmp key bytes ko tie (s.left + s.size / 2) = .gt ∧
          s'.left = s.left ∧ s'.right = s.left + s.size / 2) ∨
       (effCmp key bytes ko tie (s.left + s.size / 2) = .eq ∧
          s'.left = s.left ∧ s'.right = s.right)) := by
  simp only [pstep] at hp
  split at hp
  · cases hp
    cases hcv : effCmp key bytes ko tie (s.left + s.size / 2) with
    | lt => exact ⟨rfl, Or.inl ⟨rfl, by simp, by simp⟩⟩
    | eq => exact ⟨rfl, Or.inr (Or.inr ⟨rfl, by simp, by simp⟩)⟩
    | gt => exact ⟨rfl, Or.inr (Or.inl ⟨rfl, by simp, by simp⟩)⟩
  · exact absurd hp (by simp)

theorem pstep_dec (key bytes ko : List Nat) (tie : Ordering) (ht : tie ≠ .eq) (s s' : PRange)
    (h1 : s.size = s.right - s.left) (hlr : s.left < s.right)
    (hp : pstep key bytes ko tie s = .ok s') :
    s'.size = s'.right - s'.left ∧ s'.right - s'.left < s.right - s.left := by
  obtain ⟨hsz, hc⟩ := pstep_cases key bytes ko tie s s' hp
  refine ⟨hsz, ?_⟩
  have hmid : s.left + s.size / 2 < s.right := by omega
  rcases hc with ⟨_, hl, hr⟩ | ⟨_, hl, hr⟩ | ⟨hcv, _, _⟩
  · omega
  · omega
  · exact absurd hcv (effCmp_ne_eq key bytes ko tie ht _)

/-- The loop homes in on the boundary `b` of the effective comparison. -/
theorem ploop_finds (key bytes ko : List Nat) (tie : Ordering) (n b : Nat)
    (hok : ∀ i, i < n → entryOk bytes ko i)
    (hchar : ∀ i, i < n → (effCmp key bytes ko tie i = .gt ↔ b ≤ i))
    (hne : ∀ i, i < n → effCmp key bytes ko tie i ≠ .eq) :
    ∀ fuel s, s.size = s.right - s.left → s.left ≤ b → b ≤ s.right → s.right ≤ n →
      s.right - s.left ≤ fuel →
      ploop key bytes ko tie fuel s = .ok ⟨b, b, 0⟩ := by
  intro fuel
  induction fuel with
  | zero =>
    intro s h1 h2 h3 h4 h5
    have hl : s.left = b := by omega
    have hr : s.right = b := by omega
    have hsz : s.size = 0 := by omega
    have heta : s = ⟨s.left, s.right, s.size⟩ := rfl
    have hs : s = ⟨b, b, 0⟩ := by rw [heta, hl, hr, hsz]
    rw [hs]
    rfl
  | succ f ih =>
    intro s h1 h2 h3 h4 h5
    by_cases hlr : s.left < s.right
    · simp only [ploop, if_pos hlr]
      have hmid : s.left + s.size / 2 < s.right := by omega
      have hmidn : s.left + s.size / 2 < n := by omega
      split
      · rename_i p hps
        simp only [pstep] at hps
        split at hps
        · exact absurd hps (by simp)
        · rename_i hek; exact absurd (hok _ hmidn) hek
      · rename_i s' hps
        obtain ⟨hsz, hc⟩ := pstep_cases key bytes ko tie s s' hps
        rcases hc with ⟨hcv, hl, hr⟩ | ⟨hcv, hl, hr⟩ | ⟨hcv, hl, hr⟩
        · have hmb : s.left + s.size / 2 < b := by
            by_contra hle
            have hgt := (hchar _ hmidn).2 (by omega)
            rw [hcv] at hgt
            exact Ordering.noConfusion hgt
          exact ih s' hsz (by omega) (by omega) (by omega) (by omega)
        · have hmb : b ≤ s.left + s.size / 2 := (hchar _ hmidn).1 hcv
          exact ih s' hsz (by omega) (by omega) (by omega) (by omega)
        · exact absurd hcv (hne _ hmidn)
    · simp only [ploop, if_neg hlr]
      have hl : s.left = b := by omega
      have hr : s.right = b := by omega
      have hsz : s.size = 0 := by omega
      have heta : s = ⟨s.left, s.right, s.size⟩ := rfl
      have hs : s = ⟨b, b, 0⟩ := by rw [heta, hl, hr, hsz]
      rw [hs]

/-- With a non-`eq` tie-break the loop's result is independent of any
sufficiently large fuel: the source's unbounded `while` loop terminates. -/
theorem ploop_congr (key bytes ko : List Nat) (tie : Ordering) (ht : tie ≠ .eq) :
    ∀ f1 f2 s, s.size = s.right - s.left → s.right - s.left ≤ f1 → s.right - s.left ≤ f2 →
      ploop key bytes ko tie f1 s = ploop key bytes ko tie f2 s := by
  intro f1
  induction f1 with
  | zero =>
    intro f2 s h1 h2 h3
    have hlr : ¬ s.left < s.right := by omega
    cases f2 with
    | zero => rfl
    | succ f => simp only [ploop, if_neg hlr]
  | succ g ih =>
    intro f2 s h1 h2 h3
    by_cases hlr : s.left < s.right
    · cases f2 with
      | zero => exact absurd h3 (by omega)
      | succ f =>
        simp only [ploop, if_pos hlr]
        cases hps : pstep key bytes ko tie s with
        | error p => rfl
        | ok s' =>
          obtain ⟨hsz, hdec⟩ := pstep_dec key bytes ko tie ht s s' h1 hlr hps
          exact ih f s' hsz (by omega) (by omega)
    · cases f2 with
      | zero => simp only [ploop, if_neg hlr]
      | succ f => simp only [ploop, if_neg hlr]

/-- The loop keeps `left ≤ right ≤ n` whatever the tie-break. -/
theorem ploop_bounds (key bytes ko : List Nat) (tie : Ordering) (n : Nat) :
    ∀ fuel s t, s.size = s.right - s.left → s.left ≤ s.right → s.right ≤ n →
      ploop key bytes ko tie fuel s = .ok t → t.left ≤ t.right ∧ t.right ≤ n := by
  intro fuel
  induction fuel with
  | zero =>
    intro s t h0 h1 h2 hp
    simp only [ploop] at hp
    cases hp
    exact ⟨h1, h2⟩
  | succ f ih =>
    intro s t h0 h1 h2 hp
    by_cases hlr : s.left < s.right
    · simp only [ploop, if_pos hlr] at hp
      split at hp
      · exact absurd hp (by simp)
      · rename_i s' hps
        obtain ⟨hsz, hc⟩ := pstep_cases key bytes ko tie s s' hps
        have hmid : s.left + s.size / 2 < s.right := by omega
        have hb : s'.left ≤ s'.right ∧ s'.right ≤ n := by
          rcases hc with ⟨_, hl, hr⟩ | ⟨_, hl, hr⟩ | ⟨_, hl, hr⟩ <;> omega
        exact ih s' t hsz hb.1 hb.2 hp
    · simp only [ploop, if_neg hlr] at hp
      cases hp
      exact ⟨h1, h2⟩

/-- `partition` returns exactly the boundary index of the effective comparison. -/
theorem partition_finds (key bytes ko : List Nat) (tie : Ordering) (b : Nat)
    (h2 : 2 ≤ ko.length)
    (hok : ∀ i, i < ko.length / 2 - 1 → entryOk bytes ko i)
    (hchar : ∀ i, i < ko.length / 2 - 1 → (effCmp key bytes ko tie i = .gt ↔ b ≤ i))
    (hne : ∀ i, i < ko.length / 2 - 1 → effCmp key bytes ko tie i ≠ .eq)
    (hb : b ≤ ko.length / 2 - 1) :
    partition key bytes ko tie = .ok b := by
  have hrun := ploop_finds key bytes ko tie (ko.length / 2 - 1) b hok hchar hne
    (ko.length / 2 - 1) ⟨0, ko.length / 2 - 1, ko.length / 2 - 1⟩
    rfl (Nat.zero_le b) hb (Nat.le_refl _) (Nat.le_refl _)
  simp only [partition, if_neg (by omega : ¬ ko.length < 2), hrun, Except.map]

/-- Whatever `partition` returns is at most the number of entries. -/
theorem partition_le (key bytes ko : List Nat) (tie : Ordering) (i : Nat)
    (hp : partition key bytes ko tie = .ok i) : i ≤ ko.length / 2 - 1 := by
  by_cases h2 : ko.length < 2
  · simp only [partition, if_pos h2] at hp
    exact absurd hp (by simp)
  · simp only [partition, if_neg h2] at hp
    cases hpl : ploop key bytes ko tie (ko.length / 2 - 1)
        ⟨0, ko.length / 2 - 1, ko.length / 2 - 1⟩ with
    | error p => rw [hpl] at hp; simp [Except.map] at hp
    | ok t =>
      rw [hpl] at hp
      simp only [Except.map, Except.ok.injEq] at hp
      obtain ⟨hb1, hb2⟩ := ploop_bounds key bytes ko tie (ko.length / 2 - 1) _ _ t
        rfl (Nat.zero_le _) (Nat.le_refl _) hpl
      omega

/-- Claim C1 (amended): over a strictly-ascending key table the partition search
with tie-break argument `Ordering.gt` — the argument the source passes for the
leaf's upper search — returns the first index `lo` such that every entry left of
`lo` is less than the target and every entry from `lo` onward is not less (the
lower-bound index), while tie-break `Ordering.lt` — the argument passed for the
source's lower search — returns the first index `hi` such that every entry left
of `hi` is not greater and every entry from `hi` onward is greater (the
upper-bound index): the two tie-break roles are swapped relative to the claim.
With unique (strictly ascending) keys, `hi - lo` is 1 when the target is present
and 0 when absent. -/
theorem C1_partition_bounds (key bytes ko : List Nat)
    (h2 : 2 ≤ ko.length)
    (hok : ∀ i, i < ko.length / 2 - 1 → entryOk bytes ko i)
    (hsorted : ∀ i, i < ko.length / 2 - 1 → ∀ j, j < ko.length / 2 - 1 → i < j →
      lexCmp (entryKey bytes ko i) (entryKey bytes ko j) = .lt) :
    ∃ lo hi,
      partition key bytes ko .gt = .ok lo ∧
      partition key bytes ko .lt = .ok hi ∧
      hi ≤ ko.length / 2 - 1 ∧
      (∀ i, i < lo → lexCmp (entryKey bytes ko i) key = .lt) ∧
      (∀ i, lo ≤ i → i < ko.length / 2 - 1 → lexCmp (entryKey bytes ko i) key ≠ .lt) ∧
      (∀ i, i < hi → lexCmp (entryKey bytes ko i) key ≠ .gt) ∧
      (∀ i, hi ≤ i → i < ko.length / 2 - 1 → lexCmp (entryKey bytes ko i) key = .gt) ∧
      lo ≤ hi ∧ hi - lo ≤ 1 ∧
      (hi - lo = 1 ↔ ∃ i, i < ko.length / 2 - 1 ∧ entryKey bytes ko i = key) := by
  set n := ko.length / 2 - 1 with hn
  obtain ⟨lo, hlo_n, hlo_char⟩ := exists_boundary (effCmp key bytes ko .gt) n
    (effCmp_mono key bytes ko .gt n hsorted)
  obtain ⟨hi, hhi_n, hhi_char⟩ := exists_boundary (effCmp key bytes ko .lt) n
    (effCmp_mono key bytes ko .lt n hsorted)
  have hp_gt := partition_finds key bytes ko .gt lo h2 hok hlo_char
    (fun i _ => effCmp_ne_eq key bytes ko .gt (by decide) i) hlo_n
  have hp_lt := partition_finds key bytes ko .lt hi h2 hok hhi_char
    (fun i _ => effCmp_ne_eq key bytes ko .lt (by decide) i) hhi_n
  have hA : ∀ i, i < lo → lexCmp (entryKey bytes ko i) key = .lt := by
    intro i hilo
    have hin : i < n := by omega
    have hiff := hlo_char i hin
    rw [effCmp_gt_tie_gt] at hiff
    by_contra hc
    exact absurd (hiff.1 hc) (by omega)
  have hB : ∀ i, lo ≤ i → i < n → lexCmp (entryKey bytes ko i) key ≠ .lt := by
    intro i hle hin
    have hiff := hlo_char i hin
    rw [effCmp_gt_tie_gt] at hiff
    exact hiff.2 hle
  have hC : ∀ i, i < hi → lexCmp (entryKey bytes ko i) key ≠ .gt := by
    intro i hihi
    have hin : i < n := by omega
    have hiff := hhi_char i hin
    rw [effCmp_gt_tie_lt] at hiff
    intro hc
    exact absurd (hiff.1 hc) (by omega)
  have hD : ∀ i, hi ≤ i → i < n → lexCmp (entryKey bytes ko i) key = .gt := by
    intro i hle hin
    have hiff := hhi_char i hin
    rw [effCmp_gt_tie_lt] at hiff
    exact hiff.2 hle
  have htri : ∀ o : Ordering, o ≠ .lt → o ≠ .gt → o = .eq := by
    intro o hne1 hne2
    cases o
    · exact absurd rfl hne1
    · rfl
    · exact absurd rfl hne2
  have hlohi : lo ≤ hi := by
    by_contra hcon
    have hgt := hD (lo - 1) (by omega) (by omega)
    have hlt := hA (lo - 1) (by omega)
    rw [hlt] at hgt
    exact Ordering.noConfusion hgt
  have hdiff : hi - lo ≤ 1 := by
    by_contra hcon
    have h1 : lo < n := by omega
    have h1' : lo + 1 < n := by omega
    have e0 := htri _ (hB lo (Nat.le_refl lo) h1) (hC lo (by omega))
    have e1 := htri _ (hB (lo + 1) (by omega) h1') (hC (lo + 1) (by omega))
    have k0 : entryKey bytes ko lo = key := (lexCmp_eq_iff _ _).1 e0
    have k1 : entryKey bytes ko (lo + 1) = key := (lexCmp_eq_iff _ _).1 e1
    have hs := hsorted lo h1 (lo + 1) h1' (by omega)
    rw [k0, k1, lexCmp_self] at hs
    exact Ordering.noConfusion hs
  have hpres : hi - lo = 1 ↔ ∃ i, i < n ∧ entryKey bytes ko i = key := by
    constructor
    · intro h1
      have hlon : lo < n := by omega
      exact ⟨lo, hlon,
        (lexCmp_eq_iff _ _).1 (htri _ (hB lo (Nat.le_refl lo) hlon) (hC lo (by omega)))⟩
    · rintro ⟨i, hin, hik⟩
      have heqc : lexCmp (entryKey bytes ko i) key = .eq := (lexCmp_eq_iff _ _).2 hik
      have hge : lo ≤ i := by
        by_contra hcon
        have hlt := hA i (by omega)
        rw [heqc] at hlt
        exact Ordering.noConfusion hlt
      have hup : i < hi := by
        by_contra hcon
        have hgt := hD i (by omega) hin
        rw [heqc] at hgt
        exact Ordering.noConfusion hgt
      omega
  exact ⟨lo, hi, hp_gt, hp_lt, hhi_n, hA, hB, hC, hD, hlohi, hdiff, hpres⟩

/-- Claim C1 counterexample: on the sorted single-entry table whose only key
equals the target, the `Ordering.lt` tie-break — the argument used at the
source's lower search (file_spec.rs line 200) — returns index 1, although entry
0, which lies left of the returned index, is not less than the target: the
claimed lower-bound property fails for that tie-break. -/
theorem C1_counterexample :
    partition [5] [5] [0, 0, 0, 1] .lt = .ok 1 ∧
    lexCmp (entryKey [5] [0, 0, 0, 1] 0) [5] ≠ .lt :=
  ⟨rfl, by decide⟩

/-- Claim C1 witness: concrete three-entry table with keys [1], [3], [5] and
target [3]: the `gt` tie-break returns the lower bound 1 and the `lt` tie-break
the upper bound 2. -/
theorem C1_witness :
    ∃ lo hi,
      partition [3] [1, 3, 5] [0, 0, 0, 1, 0, 2, 0, 3] .gt = .ok lo ∧
      partition [3] [1, 3, 5] [0, 0, 0, 1, 0, 2, 0, 3] .lt = .ok hi ∧
      hi ≤ 3 ∧
      (∀ i, i < lo → lexCmp (entryKey [1, 3, 5] [0, 0, 0, 1, 0, 2, 0, 3] i) [3] = .lt) ∧
      (∀ i, lo ≤ i → i < 3 → lexCmp (entryKey [1, 3, 5] [0, 0, 0, 1, 0, 2, 0, 3] i) [3] ≠ .lt) ∧
      (∀ i, i < hi → lexCmp (entryKey [1, 3, 5] [0, 0, 0, 1, 0, 2, 0, 3] i) [3] ≠ .gt) ∧
      (∀ i, hi ≤ i → i < 3 → lexCmp (entryKey [1, 3, 5] [0, 0, 0, 1, 0, 2, 0, 3] i) [3] = .gt) ∧
      lo ≤ hi ∧ hi - lo ≤ 1 ∧
      (hi - lo = 1 ↔ ∃ i, i < 3 ∧ entryKey [1, 3, 5] [0, 0, 0, 1, 0, 2, 0, 3] i = [3]) :=
  C1_partition_bounds [3] [1, 3, 5] [0, 0, 0, 1, 0, 2, 0, 3] (by decide) (by decide) (by decide)

/-- Claim C10 (amended): for the two tie-break directions the source passes
(`Less` and `Greater`), the binary-search loop of `partition` needs at most
`key_offsets.len()/2 - 1` iterations — any fuel at least that large produces the
same outcome, so the source's unbounded loop terminates — and when the search
returns an index (rather than panicking on an out-of-range arena slice, which
malformed offsets can cause) that index lies in `[0, key_offsets.len()/2 - 1]`. -/
theorem C10_loop_terminates (key bytes ko : List Nat) (tie : Ordering)
    (_h2 : 2 ≤ ko.length) (ht : tie = .lt ∨ tie = .gt) :
    (∀ fuel, ko.length / 2 - 1 ≤ fuel →
      ploop key bytes ko tie fuel ⟨0, ko.length / 2 - 1, ko.length / 2 - 1⟩ =
      ploop key bytes ko tie (ko.length / 2 - 1) ⟨0, ko.length / 2 - 1, ko.length / 2 - 1⟩) ∧
    (∀ i, partition key bytes ko tie = .ok i → i ≤ ko.length / 2 - 1) := by
  have hne : tie ≠ .eq := by rcases ht with h | h <;> subst h <;> decide
  refine ⟨fun fuel hf => ?_, fun i hp => partition_le key bytes ko tie i hp⟩
  exact ploop_congr key bytes ko tie hne fuel (ko.length / 2 - 1)
    ⟨0, ko.length / 2 - 1, ko.length / 2 - 1⟩ rfl hf (Nat.le_refl _)

/-- Claim C10 counterexample: a 4-byte offset table whose single entry has start
offset 8192 and end offset 0 makes the loop panic on the slice `bytes[8192..0]`
(slice index out of range) instead of returning an index in `[0, 1]`. -/
theorem C10_counterexample :
    partition [] [] [32, 0, 0, 0] .lt = .error .oobSlice := rfl

/-- Claim C10 witness: on the three-entry table, fuel 7 and fuel 3 agree. -/
theorem C10_witness :
    ploop [3] [1, 3, 5] [0, 0, 0, 1, 0, 2, 0, 3] .lt 7 ⟨0, 3, 3⟩ =
      ploop [3] [1, 3, 5] [0, 0, 0, 1, 0, 2, 0, 3] .lt 3 ⟨0, 3, 3⟩ :=
  (C10_loop_terminates [3] [1, 3, 5] [0, 0, 0, 1, 0, 2, 0, 3] .lt (by decide)
    (Or.inl rfl)).1 7 (by decide)

/-! Byte-buffer lemmas. -/

theorem length_writeBytes (buf data : List Nat) (i : Nat) (h : i + data.length ≤ buf.length) :
    (writeBytes buf i data).length = buf.length := by
  simp only [writeBytes, List.length_append, List.length_take, List.length_drop]
  omega

theorem listSlice_writeBytes_self (buf data : List Nat) (i : Nat)
    (h : i + data.length ≤ buf.length) :
    listSlice (writeBytes buf i data) i (i + data.length) = data := by
  have h1 : (buf.take i).length = i := List.length_take_of_le (by omega)
  unfold listSlice writeBytes
  rw [List.append_assoc, List.drop_left' h1, Nat.add_sub_cancel_left]
  exact List.take_left' rfl

theorem listSlice_writeBytes_before (buf data : List Nat) (i a b : Nat)
    (hb : b ≤ i) (hle : i ≤ buf.length) :
    listSlice (writeBytes buf i data) a b = listSlice buf a b := by
  have h1 : (buf.take i).length = i := List.length_take_of_le hle
  unfold listSlice writeBytes
  rw [List.append_assoc, List.drop_append_eq_append_drop, List.take_append_eq_append_take]
  have h2 : (List.drop a (buf.take i)).length = i - a := by
    rw [List.length_drop, h1]
  rw [h2]
  have h3 : b - a - (i - a) = 0 := by omega
  rw [h3, List.take_zero, List.append_nil, List.drop_take, List.take_take]
  congr 1
  omega

theorem listSlice_writeBytes_after (buf data : List Nat) (i a b : Nat)
    (ha : i + data.length ≤ a) (hle : i + data.length ≤ buf.length) :
    listSlice (writeBytes buf i data) a b = listSlice buf a b := by
  have h1 : (buf.take i ++ data).length = i + data.length := by
    simp only [List.length_append, List.length_take]
    omega
  unfold listSlice writeBytes
  rw [List.drop_append_eq_append_drop]
  rw [List.drop_eq_nil_of_le (by rw [h1]; exact ha), List.nil_append, h1, List.drop_drop]
  congr 2
  omega

theorem readW64_w64be (v : Nat) (h : v < 2 ^ 64) : readW64 (w64be v) = v := by
  simp only [readW64, w64be, List.foldl_cons, List.foldl_nil]
  omega

theorem pageCheck_le (ps : Nat) (h : pageCheck ps = true) : 32 ≤ ps := by
  simp only [pageCheck, Bool.and_eq_true, decide_eq_true_eq] at h
  exact h.1.2

/-- `Page::<FileHeaderV1>::new` succeeds on a checked page size and stamps the
four header fields at their `repr(C)` offsets, leaving the rest of the buffer. -/
theorem fileHeaderNew_fields (ps : Nat) (buf : List Nat) (hbuf : buf.length = ps)
    (hck : pageCheck ps = true) :
    ∃ page, fileHeaderNew ps buf = .ok page ∧ page.length = ps ∧
      listSlice page 0 4 = fileMagic ∧
      listSlice page 4 12 = w64be NULL_PAGE ∧
      listSlice page 12 20 = w64be NULL_PAGE ∧
      listSlice page 20 28 = w64be (ps % 2 ^ 64) := by
  have h32 : 32 ≤ ps := pageCheck_le ps hck
  have hm : fileMagic.length = 4 := rfl
  have hw : ∀ v, (w64be v).length = 8 := fun v => rfl
  set p1 := writeBytes buf 0 fileMagic with hp1
  have hl1 : p1.length = ps := by
    rw [hp1, length_writeBytes buf fileMagic 0 (by rw [hm, hbuf]; omega)]
    exact hbuf
  set p2 := writeBytes p1 12 (w64be NULL_PAGE) with hp2
  have hl2 : p2.length = ps := by
    rw [hp2, length_writeBytes p1 _ 12 (by rw [hw, hl1]; omega)]
    exact hl1
  set p3 := writeBytes p2 4 (w64be NULL_PAGE) with hp3
  have hl3 : p3.length = ps := by
    rw [hp3, length_writeBytes p2 _ 4 (by rw [hw, hl2]; omega)]
    exact hl2
  set p4 := writeBytes p3 20 (w64be (ps % 2 ^ 64)) with hp4
  have hl4 : p4.length = ps := by
    rw [hp4, length_writeBytes p3 _ 20 (by rw [hw, hl3]; omega)]
    exact hl3
  have hmagic : listSlice p4 0 4 = fileMagic := by
    rw [hp4, listSlice_writeBytes_before _ _ 20 0 4 (by omega) (by rw [hl3]; omega)]
    rw [hp3, listSlice_writeBytes_before _ _ 4 0 4 (by omega) (by rw [hl2]; omega)]
    rw [hp2, listSlice_writeBytes_before _ _ 12 0 4 (by omega) (by rw [hl1]; omega)]
    rw [hp1]
    exact listSlice_writeBytes_self buf fileMagic 0 (by rw [hm, hbuf]; omega)
  have hidx : listSlice p4 4 12 = w64be NULL_PAGE := by
    rw [hp4, listSlice_writeBytes_before _ _ 20 4 12 (by omega) (by rw [hl3]; omega)]
    rw [hp3]
    exact listSlice_writeBytes_self p2 (w64be NULL_PAGE) 4 (by rw [hw, hl2]; omega)
  have hfree : listSlice p4 12 20 = w64be NULL_PAGE := by
    rw [hp4, listSlice_writeBytes_before _ _ 20 12 20 (by omega) (by rw [hl3]; omega)]
    rw [hp3, listSlice_writeBytes_after _ _ 4 12 20 (by rw [hw]) (by rw [hw, hl2]; omega)]
    rw [hp2]
    exact listSlice_writeBytes_self p1 (w64be NULL_PAGE) 12 (by rw [hw, hl1]; omega)
  have hpsz : listSlice p4 20 28 = w64be (ps % 2 ^ 64) := by
    rw [hp4]
    exact listSlice_writeBytes_self p3 (w64be (ps % 2 ^ 64)) 20 (by rw [hw, hl3]; omega)
  refine ⟨p4, ?_, hl4, hmagic, hidx, hfree, hpsz⟩
  simp only [fileHeaderNew, if_pos hck]

/-- `from_buf` succeeds on a buffer with the right magic and matching page size. -/
theorem fileHeaderFromBuf_valid (ps : Nat) (page : List Nat)
    (hmag : listSlice page 0 4 = fileMagic)
    (hps : readW64 (listSlice page 20 28) = ps % 2 ^ 64)
    (hck : pageCheck ps = true) :
    fileHeaderFromBuf ps page = .ok (.ok ()) := by
  simp [fileHeaderFromBuf, hmag, hps, hck]

theorem memWrite_empty (page : List Nat) (h : 0 < page.length) :
    memWrite [] 0 page = .ok page := by
  simp [memWrite, writeBytes, h]

theorem memRead_self (page : List Nat) : memRead page 0 page.length = .ok page := by
  simp [memRead, listSlice]

/-! Concrete buffers used by witnesses and counterexamples. -/

/-- The fresh 32-byte file header page: magic, two `NULL_PAGE` words, the page
size 32 big-endian, and the four untouched (zero) tail bytes. -/
def hdr32 : List Nat :=
  [107, 118, 49, 102,
   255, 255, 255, 255, 255, 255, 255, 255,
   255, 255, 255, 255, 255, 255, 255, 255,
   0, 0, 0, 0, 0, 0, 0, 32,
   0, 0, 0, 0]

/-- A 4096-byte header page with valid magic whose stored page_size is 8192. -/
def hdrWrongSize : List Nat :=
  fileMagic ++ w64be NULL_PAGE ++ w64be NULL_PAGE ++ w64be 8192 ++ List.replicate 4068 0

/-- A 4096-byte page with corrupt (zeroed) magic and stored page_size 4096. -/
def hdrBadMagic : List Nat :=
  [0, 0, 0, 0] ++ w64be NULL_PAGE ++ w64be NULL_PAGE ++ w64be 4096 ++ List.replicate 4068 0

/-- A 32-byte leaf page with `len = 1` whose key-offset entries are `0xffff`,
far beyond the 12-byte arena. -/
def leafBadOffsets : List Nat :=
  [107, 118, 49, 108, 0, 0, 0, 0, 0, 0, 0, 1,
   255, 255, 255, 255, 0, 0, 0, 0,
   0, 0, 0, 0, 0, 0, 0, 0, 0, 0, 0, 0]

/-- A 32-byte leaf page whose stored `len` is `2^64 - 1`. -/
def leafHugeLen : List Nat :=
  [107, 118, 49, 108,
   255, 255, 255, 255, 255, 255, 255, 255,
   0, 0, 0, 0, 0, 0, 0, 0,
   0, 0, 0, 0, 0, 0, 0, 0, 0, 0, 0, 0]

/-- Claim C2 (code_bug exhibit): `KvStore::set` is `todo!()` — it panics
unconditionally on every input, so `set(k, v)` can never return `Ok(())`, and
the unfinished `get` never produces `Ok(Some(_))` for any store: the
set-then-get round trip asserted by the claim (and by the repository's own
`smoke` test) is impossible in this code. -/
theorem C2_set_unimplemented (store key value : List Nat) (ps n : Nat) :
    kvSet store key value = .error .todoUnimplemented ∧
    (kvGet ps store key).1 ≠ .ok (.ok (some n)) := by
  refine ⟨rfl, ?_⟩
  unfold kvGet
  split
  · simp
  · split
    · simp
    · simp
    · split
      · simp
      · split
        · simp
        · simp

/-- Claim C3: when the file header page parses successfully and its root
(`index_page`) field equals `NULL_PAGE`, `get` returns `Ok(None)` having
performed exactly one storage operation — the read of page 0 — so no further
page is read. -/
theorem C3_get_null_root (ps : Nat) (store key buf : List Nat)
    (hread : memRead store 0 ps = .ok buf)
    (hhdr : fileHeaderFromBuf ps buf = .ok (.ok ()))
    (hroot : readW64 (listSlice buf 4 12) = NULL_PAGE) :
    kvGet ps store key = (.ok (.ok none), [.read 0 ps]) := by
  unfold kvGet
  split
  · rename_i p heq
    rw [hread] at heq
    exact absurd heq (by simp)
  · rename_i buf2 heq
    rw [hread] at heq
    injection heq with h
    subst h
    split
    · rename_i p heq2
      rw [hhdr] at heq2
      exact absurd heq2 (by simp)
    · rename_i e heq2
      rw [hhdr] at heq2
      exact absurd heq2 (by simp)
    · rw [if_pos hroot]

/-- Claim C3 witness: on the 32-byte store holding only the fresh header page,
`get` returns `Ok(None)` and reads only page 0. -/
theorem C3_witness : kvGet 32 hdr32 [] = (.ok (.ok none), [.read 0 32]) :=
  C3_get_null_root 32 hdr32 [] hdr32 rfl rfl rfl

/-- Claim C4 (amended): a header with valid magic whose stored page_size
differs from the configured one is rejected — loading fails and never silently
misreads — but the error is `Error::Bad`, the crate's sole error value, the same
value returned for corrupt magic, not a distinct `IncompatiblePageSize`. -/
theorem C4_size_mismatch_rejected (ps : Nat) (buf : List Nat)
    (hmag : listSlice buf 0 4 = fileMagic)
    (hmm : readW64 (listSlice buf 20 28) ≠ ps % 2 ^ 64) :
    fileHeaderFromBuf ps buf = .ok (.error .bad) := by
  unfold fileHeaderFromBuf
  rw [if_neg (show ¬listSlice buf 0 4 ≠ fileMagic from fun hc => hc hmag), if_pos hmm]

/-- Claim C4 counterexample: opening a header recording page_size 8192 with
configured PAGE_SIZE 4096 yields `Error::Bad` — exactly the same error value
produced for a corrupt-magic page, so no distinct `IncompatiblePageSize` error
exists in this code. -/
theorem C4_counterexample :
    fileHeaderFromBuf 4096 hdrWrongSize = .ok (.error .bad) ∧
    fileHeaderFromBuf 4096 hdrBadMagic = .ok (.error .bad) :=
  ⟨rfl, rfl⟩

/-- Claim C4 witness: the 8192-in-4096 scenario rejected via the theorem. -/
theorem C4_witness : fileHeaderFromBuf 4096 hdrWrongSize = .ok (.error .bad) :=
  C4_size_mismatch_rejected 4096 hdrWrongSize rfl (by decide)

/-- Claim C5: a leaf page whose stored `len` exceeds `PAGE_SIZE/4`, or whose
offset tables would extend past `PAGE_SIZE`, makes `get` fail with the error
(`Error::Bad`) before any table or arena slice is formed, so no out-of-bounds
access happens. -/
theorem C5_oversized_table_rejected (ps : Nat) (buf key : List Nat)
    (h : readW64 (listSlice buf 4 12) > ps / 4 ∨
      12 + readW64 (listSlice buf 4 12) * 2 + 2 + readW64 (listSlice buf 4 12) * 2 + 2 > ps) :
    leafGet ps buf key = .ok (.error .bad) := by
  simp only [leafGet]
  rw [if_pos h]

/-- Claim C5 witness: the leaf page storing `len = 2^64 - 1` is rejected. -/
theorem C5_witness : leafGet 32 leafHugeLen [] = .ok (.error .bad) :=
  C5_oversized_table_rejected 32 leafHugeLen [] (Or.inl (by decide))

/-- Claim C6 (code_bug exhibit): malformed data does panic.  A leaf page whose
key-offset table holds arbitrary u16 offsets (0xffff, beyond the arena) drives
the partition search into a slice-bounds panic rather than returning `Ok`/`Err`,
and a memory-storage read whose `offset+length` exceeds the vector's extent
panics on `vec[pos..pos+len]` instead of failing with an I/O error. -/
theorem C6_malformed_data_panics :
    leafGet 32 leafBadOffsets [] = .error .oobSlice ∧
    memRead [] 0 4096 = .error .oobSlice :=
  ⟨rfl, rfl⟩

/-- Claim C7: for every page size accepted by `check()`, creating a fresh file
header page, persisting it at offset 0 into empty memory storage, reading the
page back and reloading it with `from_buf` succeeds, and the reloaded buffer
carries identical `root_page` (`index_page`), `first_free_page` and `page_size`
field values. -/
theorem C7_roundtrip (ps : Nat) (buf : List Nat) (hbuf : buf.length = ps)
    (hck : pageCheck ps = true) :
    ∃ page buf2,
      fileHeaderNew ps buf = .ok page ∧
      memWrite [] 0 page = .ok page ∧
      memRead page 0 ps = .ok buf2 ∧
      fileHeaderFromBuf ps buf2 = .ok (.ok ()) ∧
      readW64 (listSlice buf2 4 12) = readW64 (listSlice page 4 12) ∧
      readW64 (listSlice buf2 12 20) = readW64 (listSlice page 12 20) ∧
      readW64 (listSlice buf2 20 28) = readW64 (listSlice page 20 28) := by
  obtain ⟨page, hnew, hlen, hmag, hidx, hfree, hpsz⟩ := fileHeaderNew_fields ps buf hbuf hck
  have h32 : 32 ≤ ps := pageCheck_le ps hck
  have hread : memRead page 0 ps = .ok page := by
    rw [← hlen]
    exact memRead_self page
  refine ⟨page, page, hnew, memWrite_empty page (by omega), hread, ?_, rfl, rfl, rfl⟩
  refine fileHeaderFromBuf_valid ps page hmag ?_ hck
  rw [hpsz, readW64_w64be _ (Nat.mod_lt _ (by norm_num))]

/-- Claim C7 witness: the round trip at page size 32 over a zeroed buffer. -/
theorem C7_witness :
    ∃ page buf2,
      fileHeaderNew 32 (List.replicate 32 0) = .ok page ∧
      memWrite [] 0 page = .ok page ∧
      memRead page 0 32 = .ok buf2 ∧
      fileHeaderFromBuf 32 buf2 = .ok (.ok ()) ∧
      readW64 (listSlice buf2 4 12) = readW64 (listSlice page 4 12) ∧
      readW64 (listSlice buf2 12 20) = readW64 (listSlice page 12 20) ∧
      readW64 (listSlice buf2 20 28) = readW64 (listSlice page 20 28) :=
  C7_roundtrip 32 (List.replicate 32 0) (by simp) (by decide)

/-- Claim C8: a fresh file header page at PAGE_SIZE 32 over the zeroed buffer
its callers supply is exactly `hdr32`: magic bytes `"kv1f"`, `root_page`
(`index_page`) and `first_free_page` both the all-ones `NULL_PAGE`, the
page_size field 32 in 8-byte big-endian, all remaining bytes zero. -/
theorem C8_fresh_header :
    fileHeaderNew 32 (List.replicate 32 0) = .ok hdr32 ∧
    listSlice hdr32 0 4 = fileMagic ∧
    readW64 (listSlice hdr32 4 12) = NULL_PAGE ∧
    readW64 (listSlice hdr32 12 20) = NULL_PAGE ∧
    listSlice hdr32 20 28 = w64be 32 ∧
    listSlice hdr32 28 32 = [0, 0, 0, 0] ∧
    hdr32.length = 32 :=
  ⟨rfl, rfl, rfl, rfl, rfl, rfl, rfl⟩

/-- Claim C9: `get` only ever reads from storage — its trace of storage
operations contains no write, for every page size, store contents and key,
whichever branch (success, error or panic path) is taken. -/
theorem C9_get_no_writes (ps : Nat) (store key : List Nat) :
    ((kvGet ps store key).2).all StOp.isRead = true := by
  unfold kvGet
  split
  · rfl
  · split
    · rfl
    · rfl
    · split
      · rfl
      · split
        · rfl
        · rfl
